import Mathlib

/-!
Verification of the stream-cipher chat core (`rust_03.rs`): Diffie-Hellman
style handshake over fixed 64-bit parameters, an LCG keystream generator
seeded by the shared secret, and an XOR stream cipher.

Machine integers are embedded as `Nat` with explicit reductions where the
source casts: `as u64` is `% 2 ^ 64`, the LCG modulus `1u64 << 32` is
`2 ^ 32`, `& 0xFF` is `% 256`.  The `u128` intermediates in the source never
reach `2 ^ 128` on the inputs the program produces, which is proved below via
a checked arithmetic model (`mod_exp_checked`).
-/

/-- Hardcoded DH modulus `P` (64-bit, public). -/
def P : Nat := 0xD87FA3E291B4C7F3

/-- Hardcoded DH generator `G` (public). -/
def G : Nat := 2

/-- LCG multiplier `LCG_A`. -/
def LCG_A : Nat := 1103515245

/-- LCG increment `LCG_C`. -/
def LCG_C : Nat := 12345

/-- LCG modulus `LCG_M = 1u64 << 32`. -/
def LCG_M : Nat := 2 ^ 32

/-- The `while exp > 0` loop of `mod_exp` in `rust_03.rs`: square-and-multiply
with every product reduced modulo `modulus`.  The source computes the products
in `u128`; operands stay below the `u64` modulus, so the products stay below
`2 ^ 128` and plain `Nat` arithmetic is faithful (checked in
`mod_exp_checked_total`). -/
def modExpLoop (result base exp modulus : Nat) : Nat :=
  if exp = 0 then result
  else
    modExpLoop (if exp % 2 = 1 then result * base % modulus else result)
      (base * base % modulus) (exp / 2) modulus
termination_by exp
decreasing_by omega

/-- Modular exponentiation `(base ^ exp) mod modulus` from `rust_03.rs`:
`result` starts at 1, `base` is reduced by `base %= modulus` before the loop. -/
def mod_exp (base exp modulus : Nat) : Nat :=
  modExpLoop 1 (base % modulus) exp modulus

theorem modExpLoop_lt (exp result base modulus : Nat) (hm : 0 < modulus)
    (hr : result < modulus) : modExpLoop result base exp modulus < modulus := by
  induction exp using Nat.strong_induction_on generalizing result base with
  | _ exp ih =>
    rw [modExpLoop]
    by_cases he : exp = 0
    · simpa [he] using hr
    · simp only [he, if_false]
      apply ih (exp / 2) (by omega)
      by_cases ho : exp % 2 = 1
      · simp [ho, Nat.mod_lt _ hm]
      · simpa [ho] using hr

theorem modExpLoop_mod (exp result base modulus : Nat) :
    modExpLoop result base exp modulus % modulus = result * base ^ exp % modulus := by
  induction exp using Nat.strong_induction_on generalizing result base with
  | _ exp ih =>
    rw [modExpLoop]
    by_cases he : exp = 0
    · simp [he]
    · simp only [he, if_false]
      rw [ih (exp / 2) (by omega)]
      have h2 : base * base % modulus ≡ base * base [MOD modulus] :=
        Nat.mod_modEq _ _
      by_cases ho : exp % 2 = 1
      · have key : base * (base * base) ^ (exp / 2) = base ^ exp := by
          rw [← pow_two, ← pow_mul, ← pow_succ']
          congr 1
          omega
        have h1 : result * base % modulus ≡ result * base [MOD modulus] :=
          Nat.mod_modEq _ _
        have h3 : result * base % modulus * (base * base % modulus) ^ (exp / 2) % modulus
            = result * base * (base * base) ^ (exp / 2) % modulus :=
          h1.mul (h2.pow (exp / 2))
        simp only [ho, if_true]
        rw [h3, mul_assoc, key]
      · have key : (base * base) ^ (exp / 2) = base ^ exp := by
          rw [← pow_two, ← pow_mul]
          congr 1
          omega
        have h3 : result * (base * base % modulus) ^ (exp / 2) % modulus
            = result * (base * base) ^ (exp / 2) % modulus :=
          (Nat.ModEq.refl result).mul (h2.pow (exp / 2))
        simp only [ho, if_false]
        rw [h3, key]

/-- Shared correctness lemma: for `modulus > 1`, `mod_exp` agrees with exact
arbitrary-precision `base ^ exp % modulus`. -/
theorem mod_exp_eq_pow_mod (base exp modulus : Nat) (hm : 1 < modulus) :
    mod_exp base exp modulus = base ^ exp % modulus := by
  have h0 : 0 < modulus := by omega
  have hlt := modExpLoop_lt exp 1 (base % modulus) modulus h0 hm
  have hmod := modExpLoop_mod exp 1 (base % modulus) modulus
  rw [Nat.mod_eq_of_lt hlt] at hmod
  rw [mod_exp, hmod, Nat.one_mul, ← Nat.pow_mod]

/-- Checked 128-bit multiplication: `none` models a `u128` overflow panic. -/
def mul128 (x y : Nat) : Option Nat :=
  if x * y < 2 ^ 128 then some (x * y) else none

/-- Checked remainder: `none` models the Rust panic on `% 0`. -/
def mod128 (x m : Nat) : Option Nat :=
  if m = 0 then none else some (x % m)

/-- The `mod_exp` loop with every `u128` product and `%` checked, to show the
source never overflows or panics on its input domain. -/
def modExpLoopChecked (result base exp modulus : Nat) : Option Nat :=
  if exp = 0 then some result
  else
    match (if exp % 2 = 1 then (mul128 result base).bind (fun p => mod128 p modulus)
           else some result) with
    | none => none
    | some r =>
      match (mul128 base base).bind (fun sq => mod128 sq modulus) with
      | none => none
      | some b => modExpLoopChecked r b (exp / 2) modulus
termination_by exp
decreasing_by omega

/-- Checked version of `mod_exp`: the initial `base %= modulus` plus the loop. -/
def mod_exp_checked (base exp modulus : Nat) : Option Nat :=
  (mod128 base modulus).bind (fun b => modExpLoopChecked 1 b exp modulus)

theorem modExpLoopChecked_eq (exp result base modulus : Nat) (hm : modulus ≠ 0)
    (hmu : modulus < 2 ^ 64) (hr : result < 2 ^ 64) (hb : base < 2 ^ 64) :
    modExpLoopChecked result base exp modulus
      = some (modExpLoop result base exp modulus) := by
  induction exp using Nat.strong_induction_on generalizing result base with
  | _ exp ih =>
    rw [modExpLoopChecked, modExpLoop]
    by_cases he : exp = 0
    · simp [he]
    · have hrb : result * base < 2 ^ 128 := by
        calc result * base < 2 ^ 64 * 2 ^ 64 := Nat.mul_lt_mul_of_lt_of_lt hr hb
          _ = 2 ^ 128 := by norm_num
      have hbb : base * base < 2 ^ 128 := by
        calc base * base < 2 ^ 64 * 2 ^ 64 := Nat.mul_lt_mul_of_lt_of_lt hb hb
          _ = 2 ^ 128 := by norm_num
      have hr' : (if exp % 2 = 1 then result * base % modulus else result) < 2 ^ 64 := by
        by_cases ho : exp % 2 = 1
        · simpa [ho] using lt_trans (Nat.mod_lt _ (Nat.pos_of_ne_zero hm)) hmu
        · simpa [ho] using hr
      have hb' : base * base % modulus < 2 ^ 64 :=
        lt_trans (Nat.mod_lt _ (Nat.pos_of_ne_zero hm)) hmu
      by_cases ho : exp % 2 = 1 <;>
        simp only [he, ho, if_true, if_false, mul128, mod128, hrb, hbb, hm,
          Option.bind, ite_true, ite_false] <;>
        exact ih (exp / 2) (by omega) _ _ (by simpa [ho] using hr') hb'

/-- C9: `mod_exp` is total on u64 inputs with nonzero modulus — every checked
`u128` product and `%` succeeds, and the checked run returns exactly the value
of the unchecked embedding. -/
theorem mod_exp_no_overflow (base exp modulus : Nat)
    (hb : base < 2 ^ 64) (he : exp < 2 ^ 64) (hmu : modulus < 2 ^ 64)
    (hm : modulus ≠ 0) :
    mod_exp_checked base exp modulus = some (mod_exp base exp modulus) := by
  rw [mod_exp_checked, mod_exp, mod128]
  simp only [hm, ite_false, Option.bind]
  exact modExpLoopChecked_eq exp 1 (base % modulus) modulus hm hmu (by norm_num)
    (lt_trans (Nat.mod_lt _ (Nat.pos_of_ne_zero hm)) hmu)

/-- Witness for C9 at concrete u64 inputs. -/
theorem mod_exp_no_overflow_witness :
    (7 : Nat) < 2 ^ 64 ∧ (13 : Nat) < 2 ^ 64 ∧ (1000 : Nat) < 2 ^ 64 ∧
      (1000 : Nat) ≠ 0 ∧ mod_exp_checked 7 13 1000 = some (mod_exp 7 13 1000) :=
  ⟨by norm_num, by norm_num, by norm_num, by norm_num,
    mod_exp_no_overflow 7 13 1000 (by norm_num) (by norm_num) (by norm_num)
      (by norm_num)⟩

/-- C3: for u64 inputs with `modulus > 1`, `mod_exp` computes the exact
arbitrary-precision value `base ^ exp % modulus`. -/
theorem mod_exp_correct (base exp modulus : Nat)
    (hb : base < 2 ^ 64) (he : exp < 2 ^ 64) (hmu : modulus < 2 ^ 64)
    (hm : 1 < modulus) :
    mod_exp base exp modulus = base ^ exp % modulus :=
  mod_exp_eq_pow_mod base exp modulus hm

/-- Witness for C3 at concrete u64 inputs: `7 ^ 13 mod 1000`. -/
theorem mod_exp_correct_witness :
    (7 : Nat) < 2 ^ 64 ∧ (13 : Nat) < 2 ^ 64 ∧ (1000 : Nat) < 2 ^ 64 ∧
      (1 : Nat) < 1000 ∧ mod_exp 7 13 1000 = 7 ^ 13 % 1000 :=
  ⟨by norm_num, by norm_num, by norm_num, by norm_num,
    mod_exp_correct 7 13 1000 (by norm_num) (by norm_num) (by norm_num)
      (by norm_num)⟩

/-- C2: Diffie-Hellman agreement under the fixed parameters `P`, `G` — the
listener's secret `mod_exp(pub_b, priv_a, P)` equals the connector's secret
`mod_exp(pub_a, priv_b, P)`. -/
theorem dh_agreement (priv_a priv_b : Nat)
    (ha : priv_a < 2 ^ 64) (hb : priv_b < 2 ^ 64) :
    mod_exp (mod_exp G priv_b P) priv_a P = mod_exp (mod_exp G priv_a P) priv_b P := by
  have hP : 1 < P := by norm_num [P]
  rw [mod_exp_eq_pow_mod _ _ _ hP, mod_exp_eq_pow_mod _ _ _ hP,
    mod_exp_eq_pow_mod _ _ _ hP, mod_exp_eq_pow_mod _ _ _ hP,
    ← Nat.pow_mod, ← Nat.pow_mod, ← pow_mul, ← pow_mul, Nat.mul_comm]

/-- Witness for C2 at concrete private scalars 3 and 5. -/
theorem dh_agreement_witness :
    (3 : Nat) < 2 ^ 64 ∧ (5 : Nat) < 2 ^ 64 ∧
      mod_exp (mod_exp G 5 P) 3 P = mod_exp (mod_exp G 3 P) 5 P :=
  ⟨by norm_num, by norm_num, dh_agreement 3 5 (by norm_num) (by norm_num)⟩

/-- LCG-based keystream generator: `state` is a `u64` in the source. -/
structure KeystreamGenerator where
  state : Nat

/-- Constructor `KeystreamGenerator::new(seed)`: stores the seed unreduced
(the printing side effects are irrelevant to state). -/
def KeystreamGenerator.new (seed : Nat) : KeystreamGenerator :=
  ⟨seed⟩

/-- Method `next_byte`: `state = ((state as u128 * LCG_A + LCG_C) % LCG_M) as u64`
then return `(state & 0xFF) as u8`.  The `as u64` cast is the `% 2 ^ 64`, the
`& 0xFF` is `% 256`. -/
def KeystreamGenerator.next_byte (g : KeystreamGenerator) : KeystreamGenerator × Nat :=
  let s := (g.state * LCG_A + LCG_C) % LCG_M % 2 ^ 64
  (⟨s⟩, s % 256)

/-- Helper loop of `peek_bytes`: iterates the same recurrence on a local copy
`temp_state` of the state, pushing `(temp_state & 0xFF) as u8` each round. -/
def peekLoop (temp : Nat) : Nat → List Nat
  | 0 => []
  | n + 1 =>
    let t := (temp * LCG_A + LCG_C) % LCG_M % 2 ^ 64
    t % 256 :: peekLoop t n

/-- Method `peek_bytes(&self, count)`: computes `count` future bytes from a
local copy of the state; the receiver is immutable (`&self`), so the embedding
returns only the bytes. -/
def KeystreamGenerator.peek_bytes (g : KeystreamGenerator) (count : Nat) : List Nat :=
  peekLoop g.state count

/-- Function `xor_cipher(data, keystream)`: maps each byte to
`b ^ keystream.next_byte()` left to right, threading the generator. -/
def xor_cipher : List Nat → KeystreamGenerator → List Nat × KeystreamGenerator
  | [], g => ([], g)
  | b :: rest, g =>
    let step := g.next_byte
    let tail := xor_cipher rest step.1
    ((b ^^^ step.2) :: tail.1, tail.2)

/-- The generator after `n` successive `next_byte` calls. -/
def advance (g : KeystreamGenerator) (n : Nat) : KeystreamGenerator :=
  (fun h => h.next_byte.1)^[n] g

theorem advance_succ (g : KeystreamGenerator) (n : Nat) :
    advance g (n + 1) = advance g.next_byte.1 n := by
  simp only [advance]
  exact Function.iterate_succ_apply (fun h => h.next_byte.1) n g

/-- The bytes returned by the next `n` successive `next_byte` calls. -/
def keystream_bytes (g : KeystreamGenerator) : Nat → List Nat
  | 0 => []
  | n + 1 => g.next_byte.2 :: keystream_bytes g.next_byte.1 n

/-- C4: every `next_byte` call sets the state to exactly
`(state * 1103515245 + 12345) mod 2 ^ 32` — in particular the first call on a
full 64-bit seed reduces it below `2 ^ 32` — and returns the low 8 bits of the
new state. -/
theorem next_byte_spec (s : Nat) :
    (KeystreamGenerator.mk s).next_byte.1.state = (s * 1103515245 + 12345) % 2 ^ 32 ∧
      (KeystreamGenerator.mk s).next_byte.1.state < 2 ^ 32 ∧
      (KeystreamGenerator.mk s).next_byte.2
        = (s * 1103515245 + 12345) % 2 ^ 32 % 256 := by
  have hc : ∀ x : Nat, x % 2 ^ 32 % 2 ^ 64 = x % 2 ^ 32 := fun x =>
    Nat.mod_eq_of_lt (lt_trans (Nat.mod_lt x (by norm_num)) (by norm_num))
  refine ⟨?_, ?_, ?_⟩
  · show (s * LCG_A + LCG_C) % LCG_M % 2 ^ 64 = (s * 1103515245 + 12345) % 2 ^ 32
    simp only [LCG_A, LCG_C, LCG_M]
    exact hc _
  · show (s * LCG_A + LCG_C) % LCG_M % 2 ^ 64 < 2 ^ 32
    simp only [LCG_A, LCG_C, LCG_M]
    rw [hc]
    exact Nat.mod_lt _ (by norm_num)
  · show (s * LCG_A + LCG_C) % LCG_M % 2 ^ 64 % 256
        = (s * 1103515245 + 12345) % 2 ^ 32 % 256
    simp only [LCG_A, LCG_C, LCG_M]
    rw [hc]

/-- C5: `xor_cipher` returns one output byte per input byte, each equal to the
input byte XORed with the corresponding upcoming keystream byte, and leaves the
generator exactly `data.length` `next_byte` steps ahead. -/
theorem xor_cipher_spec (data : List Nat) (g : KeystreamGenerator) :
    (xor_cipher data g).1.length = data.length ∧
      (xor_cipher data g).1
        = List.zipWith HXor.hXor data (keystream_bytes g data.length) ∧
      (xor_cipher data g).2 = advance g data.length := by
  induction data generalizing g with
  | nil => exact ⟨rfl, rfl, rfl⟩
  | cons b rest ih =>
    obtain ⟨h1, h2, h3⟩ := ih g.next_byte.1
    exact ⟨by simpa [xor_cipher] using h1,
      by simpa [xor_cipher, keystream_bytes] using h2,
      by simpa [xor_cipher, advance_succ] using h3⟩

/-- C1: encrypt-then-decrypt is the identity — two generators seeded with the
same seed and advanced by the same number of `next_byte` calls, applied in
sequence through `xor_cipher`, recover the message byte-for-byte. -/
theorem xor_cipher_roundtrip (s n : Nat) (m : List Nat) :
    (xor_cipher (xor_cipher m (advance (KeystreamGenerator.new s) n)).1
      (advance (KeystreamGenerator.new s) n)).1 = m := by
  generalize advance (KeystreamGenerator.new s) n = g
  induction m generalizing g with
  | nil => rfl
  | cons b rest ih =>
    simp only [xor_cipher, ih g.next_byte.1, Nat.xor_assoc, Nat.xor_self,
      Nat.xor_zero]

/-- A sequence of `peek_bytes` calls (one per entry of `counts`, each result
only displayed) followed by one `next_byte` call, as the diagnostic code
performs: `peek_bytes` takes `&self`, so every call sees the same state. -/
def peeks_then_next (g : KeystreamGenerator) : List Nat → KeystreamGenerator × Nat
  | [] => g.next_byte
  | c :: rest =>
    let preview := g.peek_bytes c
    let rest_result := peeks_then_next g rest
    (rest_result.1, rest_result.2)

/-- C6: `peek_bytes n` returns exactly the bytes the next `n` `next_byte`
calls would return, and it never changes the generator state: a `next_byte`
call after any number of `peek_bytes` calls returns the same byte (and
generator) as a `next_byte` call with no preceding peek. -/
theorem peek_bytes_spec (g : KeystreamGenerator) (n : Nat) :
    g.peek_bytes n = keystream_bytes g n ∧
      ∀ counts : List Nat, peeks_then_next g counts = g.next_byte := by
  constructor
  · induction n generalizing g with
    | zero => rfl
    | succ k ih =>
      have step : g.peek_bytes (k + 1)
          = g.next_byte.2 :: KeystreamGenerator.peek_bytes g.next_byte.1 k := rfl
      rw [step, ih, keystream_bytes]
  · intro counts
    induction counts with
    | nil => rfl
    | cons c rest ih => simpa [peeks_then_next] using ih

/-- C10: the keystream depends only on the low 32 bits of the seed — seeds
congruent modulo `2 ^ 32` generate identical byte sequences for every call
count. -/
theorem keystream_low_bits (s1 s2 n : Nat) (h : s1 % 2 ^ 32 = s2 % 2 ^ 32) :
    keystream_bytes (KeystreamGenerator.new s1) n
      = keystream_bytes (KeystreamGenerator.new s2) n := by
  have hmul : s1 * LCG_A + LCG_C ≡ s2 * LCG_A + LCG_C [MOD 2 ^ 32] :=
    Nat.ModEq.add_right LCG_C (Nat.ModEq.mul_right LCG_A h)
  have hstate : (KeystreamGenerator.new s1).next_byte.1
      = (KeystreamGenerator.new s2).next_byte.1 := by
    simp only [KeystreamGenerator.new, KeystreamGenerator.next_byte, LCG_M]
    exact congrArg (fun x => KeystreamGenerator.mk (x % 2 ^ 64)) hmul
  have hbyte : (KeystreamGenerator.new s1).next_byte.2
      = (KeystreamGenerator.new s2).next_byte.2 := by
    simp only [KeystreamGenerator.new, KeystreamGenerator.next_byte, LCG_M]
    exact congrArg (fun x => x % 2 ^ 64 % 256) hmul
  cases n with
  | zero => rfl
  | succ k => rw [keystream_bytes, keystream_bytes, hstate, hbyte]

/-- Witness for C10: seeds `2 ^ 32 + 5` and `5` share their low 32 bits and
generate the same first three bytes. -/
theorem keystream_low_bits_witness :
    (2 ^ 32 + 5) % 2 ^ 32 = 5 % 2 ^ 32 ∧
      keystream_bytes (KeystreamGenerator.new (2 ^ 32 + 5)) 3
        = keystream_bytes (KeystreamGenerator.new 5) 3 :=
  ⟨by norm_num, keystream_low_bits (2 ^ 32 + 5) 5 3 (by norm_num)⟩

/-- Model of ASCII whitespace for `str::trim` (the protocol's lines are
ASCII: hex characters plus the newline terminator). -/
def isWsChar (c : Char) : Bool :=
  c = ' ' || c = '\t' || c = '\n' || c = '\r'

/-- Model of Rust `str::trim`: strip leading and trailing whitespace. -/
def trimChars (l : List Char) : List Char :=
  ((l.dropWhile isWsChar).reverse.dropWhile isWsChar).reverse

/-- Value of a single hex digit, `none` for a non-hex character. -/
def hexDigitVal (c : Char) : Option Nat :=
  if '0' ≤ c ∧ c ≤ '9' then some (c.toNat - '0'.toNat)
  else if 'a' ≤ c ∧ c ≤ 'f' then some (c.toNat - 'a'.toNat + 10)
  else if 'A' ≤ c ∧ c ≤ 'F' then some (c.toNat - 'A'.toNat + 10)
  else none

/-- Modelled from the spec: the external `hex::decode` call in `run_server`
(the `hex` crate is not part of this repository's sources).  Per the spec,
decoding fails on any malformed hex — a non-hex character (or an odd digit
count) — and otherwise yields one byte per digit pair. -/
def hexDecode : List Char → Option (List Nat)
  | [] => some []
  | [_] => none
  | c1 :: c2 :: rest =>
    match hexDigitVal c1, hexDigitVal c2, hexDecode rest with
    | some hi, some lo, some bytes => some ((hi * 16 + lo) :: bytes)
    | _, _, _ => none

/-- Outcome of one iteration of the listener chat loop. -/
inductive ServerStep where
  | terminated : ServerStep
  | skipped : ServerStep
  | displayed : List Nat → ServerStep
deriving DecidableEq

/-- One iteration of the `run_server` chat loop: `none` is a zero-byte
`read_line` (peer closed — `break`); otherwise the line is trimmed, empty
lines are skipped, the rest is hex-decoded with `unwrap_or_default`, an empty
result is skipped, and a non-empty ciphertext is decrypted through
`xor_cipher` (the surrounding prints touch no state). -/
def server_step (line : Option (List Char)) (g : KeystreamGenerator) :
    ServerStep × KeystreamGenerator :=
  match line with
  | none => (ServerStep.terminated, g)
  | some l =>
    let t := trimChars l
    if t.isEmpty then (ServerStep.skipped, g)
    else
      let encrypted := (hexDecode t).getD []
      if encrypted.isEmpty then (ServerStep.skipped, g)
      else
        let out := xor_cipher encrypted g
        (ServerStep.displayed out.1, out.2)

/-- C7: a non-empty inbound line that fails hex decoding is skipped — the
listener session does not terminate, nothing is decrypted or displayed, and
the keystream generator state is exactly unchanged. -/
theorem malformed_frame_skipped (l : List Char) (g : KeystreamGenerator)
    (hne : trimChars l ≠ []) (hbad : hexDecode (trimChars l) = none) :
    server_step (some l) g = (ServerStep.skipped, g) := by
  simp only [server_step, List.isEmpty_iff, hne, if_false, hbad, Option.getD,
    List.isEmpty_eq_true]
  simp [hne, hbad]

/-- Witness for C7: the malformed frame `"zz\n"` leaves any generator (here
the one seeded with 1) untouched and the session running. -/
theorem malformed_frame_skipped_witness :
    trimChars ['z', 'z', '\n'] ≠ [] ∧
      hexDecode (trimChars ['z', 'z', '\n']) = none ∧
      server_step (some ['z', 'z', '\n']) (KeystreamGenerator.new 1)
        = (ServerStep.skipped, KeystreamGenerator.new 1) :=
  ⟨by decide, by decide,
    malformed_frame_skipped ['z', 'z', '\n'] (KeystreamGenerator.new 1)
      (by decide) (by decide)⟩

/-- A transport operation performed during the handshake. -/
inductive NetEvent where
  | recv : Nat → NetEvent
  | send : Nat → NetEvent
deriving DecidableEq

/-- True exactly for the 8-byte read of the peer public value. -/
def NetEvent.isRecv : NetEvent → Bool
  | NetEvent.recv _ => true
  | NetEvent.send _ => false

/-- The `diffie_hellman_exchange` function of `rust_03.rs` with its transport
calls reified as an event trace: the server branch does `read_exact` then
`write_all`, the client branch `write_all` then `read_exact`; both then derive
`mod_exp(their_public, private_key, P)`. -/
def diffie_hellman_exchange (is_server : Bool) (private_key their_public : Nat) :
    List NetEvent × Nat :=
  let public_key := mod_exp G private_key P
  let events :=
    if is_server then [NetEvent.recv their_public, NetEvent.send public_key]
    else [NetEvent.send public_key, NetEvent.recv their_public]
  (events, mod_exp their_public private_key P)

/-- C8: in the handshake the listener's only transport operations are one
8-byte read strictly followed by one 8-byte write, and the connector's are one
8-byte write strictly followed by one 8-byte read — never the reverse order. -/
theorem dh_exchange_order (private_key their_public : Nat) :
    (diffie_hellman_exchange true private_key their_public).1.map NetEvent.isRecv
        = [true, false] ∧
      (diffie_hellman_exchange false private_key their_public).1.map NetEvent.isRecv
        = [false, true] :=
  ⟨rfl, rfl⟩
